import Mathlib

/-!
Verification of the electron-density engine of the `bio_files` repository
(`src/map.rs` and `src/map_loading.rs`).

Modelling conventions (shallow embedding):
* `f32` / `f64` values are modelled by `ℚ` (exact arithmetic); the claims in
  scope only exercise values and operations that are exact in IEEE arithmetic,
  or are stated up to floating tolerance.
* `i32` counts that the code immediately casts to `usize` (grid dimensions,
  axis-role codes) are modelled by `ℕ`; the code's behaviour on negative values
  of those fields (wrapping casts / panics) is outside every claim's scope.
* Rust arrays `[T; 3]` are modelled by triples `T × T × T`, with an explicit
  `get3`/`set3` for the source's computed indexing (out-of-range access panics
  in Rust; the model returns a default, and is only used in-range).
* Fallible `Vec` indexing `data[offset]` is modelled by `List.getD` (Rust
  panics out of bounds; claim C9 shows the offset is always in bounds).
-/

namespace BioFiles

attribute [local semireducible] Rat.add Rat.mul Rat.sub Rat.inv

set_option maxRecDepth 8000

/-- Model of `lin_alg::f64::Vec3`. -/
structure Vec3 where
  x : ℚ
  y : ℚ
  z : ℚ
deriving DecidableEq, Repr

/-- Model of `lin_alg::f64::Mat3` (row-major entries). -/
structure Mat3 where
  m00 : ℚ
  m01 : ℚ
  m02 : ℚ
  m10 : ℚ
  m11 : ℚ
  m12 : ℚ
  m20 : ℚ
  m21 : ℚ
  m22 : ℚ
deriving DecidableEq, Repr

/-- Matrix–vector product, `Mat3 * Vec3` in `lin_alg`. -/
def Mat3.mulVec (m : Mat3) (v : Vec3) : Vec3 :=
  ⟨m.m00 * v.x + m.m01 * v.y + m.m02 * v.z,
   m.m10 * v.x + m.m11 * v.y + m.m12 * v.z,
   m.m20 * v.x + m.m21 * v.y + m.m22 * v.z⟩

/-- Read of a Rust `[T; 3]` array at a computed `usize` index.
Rust panics when `i ≥ 3`; the model returns `d` there (never used in-range
proofs rely on it). -/
def get3 {α : Type} (a : α × α × α) (i : ℕ) (d : α) : α :=
  match i with
  | 0 => a.1
  | 1 => a.2.1
  | 2 => a.2.2
  | _ => d

/-- Write to a Rust `[T; 3]` array at a computed `usize` index.
Rust panics when `i ≥ 3`; the model leaves the array unchanged there. -/
def set3 {α : Type} (a : α × α × α) (i : ℕ) (v : α) : α × α × α :=
  match i with
  | 0 => (v, a.2.1, a.2.2)
  | 1 => (a.1, v, a.2.2)
  | 2 => (a.1, a.2.1, v)
  | _ => a

/-- `f64::abs` / `f32::abs` (also `i32::abs` after a cast). -/
def ratAbs (q : ℚ) : ℚ :=
  if q < 0 then -q else q

/-- `i32::abs`. -/
def i32abs (a : ℤ) : ℤ :=
  if a < 0 then -a else a

/-- `i32::max` (`Ord::max`). -/
def i32max (a b : ℤ) : ℤ :=
  if a ≤ b then b else a

/-- `f64::round` in Rust: round to nearest, halves away from zero.
(`Rat.floor` is the computable Batteries floor, equal to `⌊·⌋`.) -/
def rustRound (q : ℚ) : ℤ :=
  if 0 ≤ q then Rat.floor (q + 1/2) else -Rat.floor (-q + 1/2)

/-- `src/map.rs` `pmod`: positive modulus that always lands in `0..n-1`.
Source: `((i % n as isize) + n as isize) as usize % n`. -/
def pmod (i : ℤ) (n : ℕ) : ℕ :=
  ((i % (n : ℤ)) + (n : ℤ)).toNat % n

/-! ## Header and density-map model (`src/map.rs`) -/

/-- Model of `MapHeader` (`src/map.rs`).  Fields the code casts straight to
`usize` (`nx ny nz`, `mx my mz`, `mapc mapr maps`) are modelled by `ℕ`. -/
structure MapHeader where
  nx : ℕ
  ny : ℕ
  nz : ℕ
  mode : ℤ
  nxstart : ℤ
  nystart : ℤ
  nzstart : ℤ
  mx : ℕ
  my : ℕ
  mz : ℕ
  cell : ℚ × ℚ × ℚ × ℚ × ℚ × ℚ
  mapc : ℕ
  mapr : ℕ
  maps : ℕ
  dmin : ℚ
  dmax : ℚ
  dmean : ℚ
  ispg : ℤ
  nsymbt : ℤ
  version : ℤ
  xorigin : Option ℚ
  yorigin : Option ℚ
  zorigin : Option ℚ
deriving DecidableEq, Repr

/-- `EPS` in `read_map_header` (`const EPS: f32 = 0.0001`). -/
def mapEPS : ℚ := 1/10000

/-- The origin-field test of `read_map_header`: the raw header float becomes
`Some` only when its magnitude exceeds `EPS`, else it is treated as absent. -/
def originField (v : ℚ) : Option ℚ :=
  if mapEPS < ratAbs v then some v else none

/-- Model of `UnitCell` (`src/map.rs`).  `UnitCell::new` computes `ortho` with
trigonometry that is not representable exactly; the claims only use the stored
matrices, so the model carries them as data. -/
structure UnitCell where
  a : ℚ
  b : ℚ
  c : ℚ
  alpha : ℚ
  beta : ℚ
  gamma : ℚ
  ortho : Mat3
  ortho_inv : Mat3
deriving DecidableEq, Repr

/-- `UnitCell::fractional_to_cartesian`: `ortho * f`. -/
def UnitCell.fractional_to_cartesian (cell : UnitCell) (f : Vec3) : Vec3 :=
  cell.ortho.mulVec f

/-- `UnitCell::cartesian_to_fractional`: `ortho_inv * c`. -/
def UnitCell.cartesian_to_fractional (cell : UnitCell) (v : Vec3) : Vec3 :=
  cell.ortho_inv.mulVec v

/-- `get_origin_frac` (`src/map.rs`): the explicit Cartesian origin is used
only when all three components are present; otherwise the origin is derived
from the start offsets and sampling counts. -/
def get_origin_frac (hdr : MapHeader) (cell : UnitCell) : Vec3 :=
  match hdr.xorigin, hdr.yorigin, hdr.zorigin with
  | some ox, some oy, some oz => cell.cartesian_to_fractional ⟨ox, oy, oz⟩
  | _, _, _ =>
    ⟨(hdr.nxstart : ℚ) / (hdr.mx : ℚ),
     (hdr.nystart : ℚ) / (hdr.my : ℚ),
     (hdr.nzstart : ℚ) / (hdr.mz : ℚ)⟩

/-- Derivation of `perm_f2c` in `DensityMap::new` (and in `sf_cif_to_map`):
`[mapc - 1, mapr - 1, maps - 1]`.  (`ℕ` subtraction; the source's `usize`
cast wraps below 1, which no claim exercises.) -/
def permF2C (mapc mapr maps : ℕ) : ℕ × ℕ × ℕ :=
  (mapc - 1, mapr - 1, maps - 1)

/-- Derivation of `perm_c2f`: start from `[0,0,0]` and, for each file axis `f`
in order, write `f` at position `perm_f2c[f]`. -/
def permC2F (mapc mapr maps : ℕ) : ℕ × ℕ × ℕ :=
  let f2c := permF2C mapc mapr maps
  set3 (set3 (set3 (0, 0, 0) f2c.1 0) f2c.2.1 1) f2c.2.2 2

/-- Model of `DensityMap` (`src/map.rs`).  `mean` and `inv_sigma` are cached
statistics (`inv_sigma` involves a square root, not representable in `ℚ`);
no claim in scope depends on their values. -/
structure DensityMap where
  hdr : MapHeader
  cell : UnitCell
  origin_frac : Vec3
  perm_f2c : ℕ × ℕ × ℕ
  perm_c2f : ℕ × ℕ × ℕ
  data : List ℚ
  mean : ℚ
  inv_sigma : ℚ
deriving DecidableEq, Repr

/-- The crystallographic voxel index `ic` computed by `density_at_point`:
Cartesian → fractional, wrap each component into `[0,1)` by subtracting its
floor, then `round(frac * m_axis - 0.5)` per axis (Rust `round`). -/
def icOfPoint (m : DensityMap) (cart : Vec3) : ℤ × ℤ × ℤ :=
  let frac := m.cell.cartesian_to_fractional cart
  let fx := frac.x - (Rat.floor frac.x : ℚ)
  let fy := frac.y - (Rat.floor frac.y : ℚ)
  let fz := frac.z - (Rat.floor frac.z : ℚ)
  (rustRound (fx * (m.hdr.mx : ℚ) - 1/2),
   rustRound (fy * (m.hdr.my : ℚ) - 1/2),
   rustRound (fz * (m.hdr.mz : ℚ) - 1/2))

/-- The file-order linear offset computed by `density_at_point` from the
crystallographic index triple: permute crystallographic→file via `perm_c2f`,
wrap each file index with `pmod` by that axis's dimension, then
`(z*ny + y)*nx + x`. -/
def nnOffset (m : DensityMap) (ic : ℤ × ℤ × ℤ) : ℕ :=
  let i0 := pmod (get3 ic m.perm_c2f.1 0) m.hdr.nx
  let i1 := pmod (get3 ic m.perm_c2f.2.1 0) m.hdr.ny
  let i2 := pmod (get3 ic m.perm_c2f.2.2 0) m.hdr.nz
  (i2 * m.hdr.ny + i1) * m.hdr.nx + i0

/-- `DensityMap::density_at_point` (`src/map.rs`): nearest-neighbour lookup. -/
def density_at_point (m : DensityMap) (cart : Vec3) : ℚ :=
  (m.data).getD (nnOffset m (icOfPoint m cart)) 0

/-- The file-order linear offset computed by `density_at_point_trilinear` for
one corner's crystallographic index triple `c`: wrap `c.x` by `nx`, `c.y` by
`ny`, `c.z` by `nz` (the *file* dimensions, before permuting), build
`ifile = [fx, fy, fz]`, permute via `perm_c2f`, then `(z*ny + y)*nx + x`. -/
def triCornerOffset (m : DensityMap) (c : ℤ × ℤ × ℤ) : ℕ :=
  let fx := pmod c.1 m.hdr.nx
  let fy := pmod c.2.1 m.hdr.ny
  let fz := pmod c.2.2 m.hdr.nz
  let ifile := (fx, fy, fz)
  let v0 := get3 ifile m.perm_c2f.1 0
  let v1 := get3 ifile m.perm_c2f.2.1 0
  let v2 := get3 ifile m.perm_c2f.2.2 0
  (v2 * m.hdr.ny + v1) * m.hdr.nx + v0

/-- `DensityMap::density_at_point_trilinear` (`src/map.rs`): periodic
trilinear interpolation over the 8 corners surrounding the query point. -/
def density_at_point_trilinear (m : DensityMap) (cart : Vec3) : ℚ :=
  let frac := m.cell.cartesian_to_fractional cart
  let fx := frac.x - (Rat.floor frac.x : ℚ)
  let fy := frac.y - (Rat.floor frac.y : ℚ)
  let fz := frac.z - (Rat.floor frac.z : ℚ)
  let gx := fx * (m.hdr.mx : ℚ) - 1/2
  let gy := fy * (m.hdr.my : ℚ) - 1/2
  let gz := fz * (m.hdr.mz : ℚ) - 1/2
  let ix0 : ℤ := Rat.floor gx
  let iy0 : ℤ := Rat.floor gy
  let iz0 : ℤ := Rat.floor gz
  let dx := gx - ix0
  let dy := gy - iy0
  let dz := gz - iz0
  let wx := fun (i : ℕ) => if i = 0 then 1 - dx else dx
  let wy := fun (i : ℕ) => if i = 0 then 1 - dy else dy
  let wz := fun (i : ℕ) => if i = 0 then 1 - dz else dz
  List.foldl (fun acc (czi : ℕ) =>
    List.foldl (fun acc (cyi : ℕ) =>
      List.foldl (fun acc (cxi : ℕ) =>
        acc + wx cxi * wy cyi * wz czi *
          (m.data).getD (triCornerOffset m (ix0 + cxi, iy0 + cyi, iz0 + czi)) 0)
        acc [0, 1]) acc [0, 1]) 0 [0, 1]

/-- `DensityMap::density_to_sig`: `(v - mean) * inv_sigma`. -/
def density_to_sig (m : DensityMap) (v : ℚ) : ℚ :=
  (v - m.mean) * m.inv_sigma

/-! ## Number parsing (`str::parse` as used by `src/map_loading.rs`)

`parse::<f32>` returns a float that may be non-finite (the literals
`inf`/`infinity`/`nan`, case-insensitive, optionally signed, parse
successfully).  Finite values are modelled exactly in `ℚ`; the claims in
scope never depend on `f32` rounding of a parsed literal. -/

/-- A parsed `f32` value: finite (exact rational), infinite, or NaN. -/
inductive FloatVal where
  | fin (q : ℚ)
  | inf
  | nan
deriving DecidableEq, Repr

/-- `f32::is_finite`. -/
def FloatVal.isFinite : FloatVal → Bool
  | .fin _ => true
  | _ => false

/-- The rational carried by a finite parsed float (only read after an
`is_finite` check in the source). -/
def FloatVal.toQ : FloatVal → ℚ
  | .fin q => q
  | _ => 0

/-- Digits (already checked) to a natural number. -/
def digitsToNat (l : List Char) : ℕ :=
  l.foldl (fun n c => 10 * n + (c.toNat - '0'.toNat)) 0

/-- Integer power of ten as a rational (for the exponent part);
`Nat.pow` is used so that the kernel can evaluate it. -/
def tenPow (e : ℤ) : ℚ :=
  if 0 ≤ e then ((Nat.pow 10 e.toNat : ℕ) : ℚ) else 1 / ((Nat.pow 10 (-e).toNat : ℕ) : ℚ)

/-- Mantissa value from integer digits and fraction digits. -/
def mantissaQ (ipart fpart : List Char) : ℚ :=
  (digitsToNat ipart : ℚ) + (digitsToNat fpart : ℚ) / ((Nat.pow 10 fpart.length : ℕ) : ℚ)

/-- Optional exponent suffix: empty, or `e`/`E`, optional sign, digits. -/
def parseExpPart (l : List Char) : Option ℤ :=
  match l with
  | [] => some 0
  | c :: rest =>
    if c = 'e' ∨ c = 'E' then
      let (sgn, rest2) : ℤ × List Char :=
        match rest with
        | '+' :: r => (1, r)
        | '-' :: r => (-1, r)
        | _ => (1, rest)
      if rest2 ≠ [] ∧ rest2.all Char.isDigit then some (sgn * digitsToNat rest2)
      else none
    else none

/-- Model of Rust `str::parse::<f32>` / `::<f64>`: optional sign, then either
a special form (`inf`, `infinity`, `nan`, case-insensitive) or a decimal
mantissa (`Digits`, `Digits . Digits?`, `. Digits`) with an optional
exponent. -/
def parseFloat (s : String) : Option FloatVal :=
  let l := s.toList
  let (sgn, l1) : ℚ × List Char :=
    match l with
    | '+' :: rest => (1, rest)
    | '-' :: rest => (-1, rest)
    | _ => (1, l)
  let lower := l1.map Char.toLower
  if lower = ['i', 'n', 'f'] ∨ lower = ['i', 'n', 'f', 'i', 'n', 'i', 't', 'y'] then
    some .inf
  else if lower = ['n', 'a', 'n'] then
    some .nan
  else
    let (ipart, rest) := l1.span Char.isDigit
    match rest with
    | '.' :: rest2 =>
      let (fpart, rest3) := rest2.span Char.isDigit
      if ipart = [] ∧ fpart = [] then none
      else
        match parseExpPart rest3 with
        | some e => some (.fin (sgn * mantissaQ ipart fpart * tenPow e))
        | none => none
    | _ =>
      if ipart = [] then none
      else
        match parseExpPart rest with
        | some e => some (.fin (sgn * mantissaQ ipart [] * tenPow e))
        | none => none

/-- Model of Rust `str::parse::<i32>`: optional sign then one or more digits
(the `i32` range check is not modelled; in-scope indices are small). -/
def parseIntRust (s : String) : Option ℤ :=
  let l := s.toList
  let (sgn, l1) : ℤ × List Char :=
    match l with
    | '+' :: rest => (1, rest)
    | '-' :: rest => (-1, rest)
    | _ => (1, l)
  if l1 ≠ [] ∧ l1.all Char.isDigit then some (sgn * digitsToNat l1) else none

/-! ## Symmetry-operator parsing (`src/map_loading.rs`) -/

/-- Model of `SymOp`: integer rotation rows `r` and fractional translation
`t`, acting as `x' = R x + t`. -/
structure SymOp where
  r : (ℤ × ℤ × ℤ) × (ℤ × ℤ × ℤ) × (ℤ × ℤ × ℤ)
  t : ℚ × ℚ × ℚ
deriving DecidableEq, Repr

/-- `str::trim` (ASCII whitespace at both ends). -/
def trimChars (l : List Char) : List Char :=
  ((l.dropWhile Char.isWhitespace).reverse.dropWhile Char.isWhitespace).reverse

/-- `str::split(',')`. -/
def splitOnComma (l : List Char) : List (List Char) :=
  match l with
  | [] => [[]]
  | a :: rest =>
    if a = ',' then [] :: splitOnComma rest
    else
      match splitOnComma rest with
      | [] => [[a]]
      | h :: t => (a :: h) :: t

/-- The term tokenizer of `parse_symop_xyz`: scan the characters, starting a
new part at each `+`/`-`, and flush the final part. -/
def tokenizeTerms (l : List Char) : List (List Char) :=
  let st := l.foldl
    (fun (st : List (List Char) × List Char) c =>
      let (parts, cur) := st
      if c = '+' ∨ c = '-' then
        if cur ≠ [] then (parts ++ [cur], [c]) else (parts, cur ++ [c])
      else (parts, cur ++ [c]))
    ([], [])
  if st.2 ≠ [] then st.1 ++ [st.2] else st.1

/-- `str::split_once('/')`. -/
def splitOnceSlash (l : List Char) : Option (List Char × List Char) :=
  match l with
  | [] => none
  | c :: rest =>
    if c = '/' then some ([], rest)
    else (splitOnceSlash rest).map (fun p => (c :: p.1, p.2))

/-- `s.parse::<f64>().unwrap_or(0.0)` restricted to finite literals (a
non-finite literal inside a symmetry expression is out of every claim's
scope and is treated like an unparsable term). -/
def floatOrZero (l : List Char) : ℚ :=
  match parseFloat (String.mk l) with
  | some (.fin q) => q
  | _ => 0

/-- `d.parse::<f64>().unwrap_or(1.0)`, same restriction as `floatOrZero`. -/
def floatOrOne (l : List Char) : ℚ :=
  match parseFloat (String.mk l) with
  | some (.fin q) => q
  | _ => 1

/-- Per-axis term processing of `parse_symop_xyz`: classify each tokenized
part as a `±1` coefficient of x/y/z or as a constant shift (decimal or
integer fraction `p/q`); unrecognized parts contribute zero. -/
def parseAxisTerm (term : List Char) : (ℤ × ℤ × ℤ) × ℚ :=
  let s := (trimChars term).filter (fun c => c ≠ ' ')
  let parts := tokenizeTerms s
  parts.foldl
    (fun (st : (ℤ × ℤ × ℤ) × ℚ) p0 =>
      let (coeff, shift) := st
      let p := trimChars p0
      if p = ['x'] ∨ p = ['+', 'x'] then ((coeff.1 + 1, coeff.2.1, coeff.2.2), shift)
      else if p = ['-', 'x'] then ((coeff.1 - 1, coeff.2.1, coeff.2.2), shift)
      else if p = ['y'] ∨ p = ['+', 'y'] then ((coeff.1, coeff.2.1 + 1, coeff.2.2), shift)
      else if p = ['-', 'y'] then ((coeff.1, coeff.2.1 - 1, coeff.2.2), shift)
      else if p = ['z'] ∨ p = ['+', 'z'] then ((coeff.1, coeff.2.1, coeff.2.2 + 1), shift)
      else if p = ['-', 'z'] then ((coeff.1, coeff.2.1, coeff.2.2 - 1), shift)
      else
        match splitOnceSlash p with
        | some nd => (coeff, shift + floatOrZero nd.1 / floatOrOne nd.2)
        | none => (coeff, shift + floatOrZero p))
    ((0, 0, 0), 0)

/-- `parse_symop_xyz` (`src/map_loading.rs`): split the expression on commas
and fill rotation row / translation component `axis_i` from each term.
(Rust panics past axis index 2; the model ignores extra terms.) -/
def parse_symop_xyz (expr : String) : SymOp :=
  let terms := splitOnComma (trimChars expr.toList)
  (terms.foldl
    (fun (st : SymOp × ℕ) term =>
      let (op, i) := st
      let cs := parseAxisTerm term
      (⟨set3 op.r i cs.1, set3 op.t i cs.2⟩, i + 1))
    (⟨((0, 0, 0), (0, 0, 0), (0, 0, 0)), (0, 0, 0)⟩, 0)).1

/-! ## Reflection-row collection (`sf_cif_to_map`, step 4) -/

/-- One accepted reflection row (`struct Ref` local to `sf_cif_to_map`). -/
structure Refl where
  h : ℤ
  k : ℤ
  l : ℤ
  amp : ℚ
  phase_deg : ℚ
deriving DecidableEq, Repr

/-- `row.get(col).and_then(|s| s.parse::<i32>().ok()).unwrap_or(0)`. -/
def parsedI32OrZero (row : List String) (col : ℕ) : ℤ :=
  ((row.get? col).bind parseIntRust).getD 0

/-- `row.get(col).and_then(|s| s.parse::<f32>().ok()).unwrap_or(0.0)` —
note the default is the *finite* value `0.0`. -/
def parsedF32OrZero (row : List String) (col : ℕ) : FloatVal :=
  ((row.get? col).bind parseFloat).getD (.fin 0)

/-- One iteration of the row loop in `sf_cif_to_map`: parse indices and
amplitude/phase with zero defaults, and keep the row (updating the running
`hmax`/`kmax`/`lmax`) exactly when both amplitude and phase are finite. -/
def acceptRow (hcol kcol lcol fcol phcol : ℕ)
    (st : List Refl × ℤ × ℤ × ℤ) (row : List String) : List Refl × ℤ × ℤ × ℤ :=
  let h := parsedI32OrZero row hcol
  let k := parsedI32OrZero row kcol
  let l := parsedI32OrZero row lcol
  let ampv := parsedF32OrZero row fcol
  let phiv := parsedF32OrZero row phcol
  if ampv.isFinite && phiv.isFinite then
    (st.1 ++ [⟨h, k, l, ampv.toQ, phiv.toQ⟩],
     i32max st.2.1 (i32abs h), i32max st.2.2.1 (i32abs k), i32max st.2.2.2 (i32abs l))
  else st

/-- The reflection-collection loop of `sf_cif_to_map` (lines 340–375):
fold `acceptRow` over the tokenized rows, starting from no reflections and
zero index extents. -/
def collectRefls (hcol kcol lcol fcol phcol : ℕ) (rows : List (List String)) :
    List Refl × ℤ × ℤ × ℤ :=
  rows.foldl (acceptRow hcol kcol lcol fcol phcol) ([], 0, 0, 0)

/-! ## Grid sizing (`sf_cif_to_map`, step 5) -/

/-- `lcm` (`src/map_loading.rs`): `a / gcd(a, b) * b`; the inner `gcd` is the
Euclidean loop, i.e. `Nat.gcd`. -/
def lcmS (a b : ℕ) : ℕ :=
  a / Nat.gcd a b * b

/-- `f64::MAX`, exactly: `(2 - 2⁻⁵²)·2¹⁰²³`. -/
def f64MAX : ℚ := ((Nat.pow 2 1024 : ℕ) : ℚ) - ((Nat.pow 2 971 : ℕ) : ℚ)

/-- One candidate test of `denom_of_fraction`: `d = d0 + 1`, error of `x·d`
to the nearest integer, strict improvement over the best so far. -/
def denomStep (x : ℚ) (st : ℕ × ℚ) (d0 : ℕ) : ℕ × ℚ :=
  let d : ℕ := d0 + 1
  let n := rustRound (x * (d : ℚ))
  let err := ratAbs (x * (d : ℚ) - (n : ℚ))
  if err < st.2 then (d, err) else st

/-- `denom_of_fraction` (`src/map_loading.rs`): test candidate denominators
1..=12 and keep the one whose multiple is closest to an integer (strict
improvement, first best wins; the running best starts at `(1, f64::MAX)`). -/
def denom_of_fraction (x : ℚ) : ℕ :=
  ((List.range 12).foldl (denomStep x) (1, f64MAX)).1

/-- The inner `while x % p == 0 { x /= p }` of `next_good_fft::is_good`,
written with a step budget (`fuel`); for `p ≥ 2` and positive `x` the loop
halves `x` at least once per step, so `fuel = x` is always enough. -/
def stripGo (p : ℕ) : ℕ → ℕ → ℕ
  | 0, x => x
  | fuel + 1, x => if 0 < x ∧ x % p = 0 then stripGo p fuel (x / p) else x

/-- Divide out the prime `p` from `x` completely (the loop body of
`is_good`).  The extra `0 < x` guard only changes the (non-terminating)
Rust behaviour at `x = 0`, which is unreachable: `next_good_fft` is only
called with positive arguments. -/
def stripFactor (p x : ℕ) : ℕ :=
  stripGo p x x

/-- `is_good` in `next_good_fft`: `x` reduces to 1 after dividing out all
factors of 2, 3 and 5. -/
def isGood (x : ℕ) : Bool :=
  stripFactor 5 (stripFactor 3 (stripFactor 2 x)) == 1

/-- The `while !is_good(k) { k += 1 }` search, with a step budget. -/
def ngfGo : ℕ → ℕ → ℕ
  | 0, k => k
  | fuel + 1, k => if isGood k then k else ngfGo fuel (k + 1)

/-- `next_good_fft` (`src/map_loading.rs`): the least FFT-friendly
(2-3-5-smooth) integer `≥ max n 1`.  The budget `max n 1 + 1` always
suffices: the next power of two above the start lies within it
(`ngfGo_spec` below). -/
def next_good_fft (n : ℕ) : ℕ :=
  ngfGo (n.max 1 + 1) (n.max 1)

/-- The per-axis LCM of symmetry-translation denominators (`dx`,`dy`,`dz`
accumulation in `sf_cif_to_map`). -/
def symDenoms (symops : List SymOp) : ℕ × ℕ × ℕ :=
  symops.foldl
    (fun (d : ℕ × ℕ × ℕ) op =>
      (lcmS d.1 (denom_of_fraction op.t.1),
       lcmS d.2.1 (denom_of_fraction op.t.2.1),
       lcmS d.2.2 (denom_of_fraction op.t.2.2)))
    (1, 1, 1)

/-- The grid-size selection of `sf_cif_to_map` (lines 377–399): start from
`next_good_fft(2*max_index + 1)` per axis, then, when an axis size is not
divisible by its symmetry denominator, round up to the next multiple and
re-apply `next_good_fft`. -/
def gridDims (hmax kmax lmax : ℕ) (symops : List SymOp) : ℕ × ℕ × ℕ :=
  let nx0 := next_good_fft (hmax * 2 + 1)
  let ny0 := next_good_fft (kmax * 2 + 1)
  let nz0 := next_good_fft (lmax * 2 + 1)
  let d := symDenoms symops
  let nx := if nx0 % d.1 ≠ 0 then next_good_fft ((nx0 + d.1 - 1) / d.1 * d.1) else nx0
  let ny := if ny0 % d.2.1 ≠ 0 then next_good_fft ((ny0 + d.2.1 - 1) / d.2.1 * d.2.1) else ny0
  let nz := if nz0 % d.2.2 ≠ 0 then next_good_fft ((nz0 + d.2.2 - 1) / d.2.2 * d.2.2) else nz0
  (nx, ny, nz)

/-! ## Reciprocal assembly (`sf_cif_to_map`, step 6) -/

/-- A complex `f32` value, modelled as an exact pair (re, im). -/
abbrev Cq : Type := ℚ × ℚ

/-- Complex addition. -/
def cadd (a b : Cq) : Cq := (a.1 + b.1, a.2 + b.2)

/-- Complex multiplication. -/
def cmul (a b : Cq) : Cq := (a.1 * b.1 - a.2 * b.2, a.1 * b.2 + a.2 * b.1)

/-- Complex conjugation (`Complex32::conj`). -/
def cconj (a : Cq) : Cq := (a.1, -a.2)

/-- Division of a complex value by a (positive) count, `grid[i] /= count[i]`. -/
def cdivNat (a : Cq) (n : ℕ) : Cq := (a.1 / (n : ℚ), a.2 / (n : ℚ))

/-- The `wrap` closure inside `sf_cif_to_map`'s `idx`:
`((q % m) + m) as usize % n` with `m = n as i32`. -/
def wrapHKL (q : ℤ) (n : ℕ) : ℕ :=
  ((q % (n : ℤ)) + (n : ℤ)).toNat % n

/-- The `idx` closure of `sf_cif_to_map`: wrap each Miller index by its grid
dimension and linear-index X-fastest: `(z*ny + y)*nx + x`. -/
def idxHKL (nx ny nz : ℕ) (h k l : ℤ) : ℕ :=
  (wrapHKL l nz * ny + wrapHKL k ny) * nx + wrapHKL h nx

/-- Accumulating state of the assembly: the complex grid and the per-cell
contribution counter, both addressed by the linear index. -/
abbrev AsmState : Type := (ℕ → Cq) × (ℕ → ℕ)

/-- `grid[p] += v`. -/
def updAdd (g : ℕ → Cq) (p : ℕ) (v : Cq) : ℕ → Cq :=
  fun i => if i = p then cadd (g p) v else g i

/-- `count[p] += 1`. -/
def updInc (c : ℕ → ℕ) (p : ℕ) : ℕ → ℕ :=
  fun i => if i = p then c p + 1 else c i

/-- One (reflection, operator) contribution of the assembly loop:
`h' = Rᵗ·h`, phase-corrected factor `fhp`, written at `idx(h',k',l')` with
its conjugate at the Friedel mate `idx(-h',-k',-l')`, counting both.
`fromPolarDeg amp deg` models `Complex32::from_polar(amp, deg.to_radians())`
and `phaseFac s` models `Complex32::from_polar(1.0, -2π·s)`; both are
abstract because angles in radians are irrational. -/
def assembleStep (nx ny nz : ℕ) (fromPolarDeg : ℚ → ℚ → Cq) (phaseFac : ℚ → Cq)
    (r : Refl) (st : AsmState) (op : SymOp) : AsmState :=
  let fh := fromPolarDeg r.amp r.phase_deg
  let hp := op.r.1.1 * r.h + op.r.2.1.1 * r.k + op.r.2.2.1 * r.l
  let kp := op.r.1.2.1 * r.h + op.r.2.1.2.1 * r.k + op.r.2.2.2.1 * r.l
  let lp := op.r.1.2.2 * r.h + op.r.2.1.2.2 * r.k + op.r.2.2.2.2 * r.l
  let s := (r.h : ℚ) * op.t.1 + (r.k : ℚ) * op.t.2.1 + (r.l : ℚ) * op.t.2.2
  let fhp := cmul fh (phaseFac s)
  let p := idxHKL nx ny nz hp kp lp
  let pneg := idxHKL nx ny nz (-hp) (-kp) (-lp)
  (updAdd (updAdd st.1 p fhp) pneg (cconj fhp),
   updInc (updInc st.2 p) pneg)

/-- The full symmetry-expansion double loop of `sf_cif_to_map` (step 6),
starting from the zero grid and zero counts. -/
def assembleSF (nx ny nz : ℕ) (fromPolarDeg : ℚ → ℚ → Cq) (phaseFac : ℚ → Cq)
    (refls : List Refl) (symops : List SymOp) : AsmState :=
  refls.foldl
    (fun st r => symops.foldl (assembleStep nx ny nz fromPolarDeg phaseFac r) st)
    (fun _ => ((0 : ℚ), (0 : ℚ)), fun _ => 0)

/-- The duplicate-averaging pass: cells with a positive count are divided by
it; untouched cells are left as they are. -/
def avgGrid (st : AsmState) : ℕ → Cq :=
  fun i => if 0 < st.2 i then cdivNat (st.1 i) (st.2 i) else st.1 i

/-! ## Derived predicates and constructions used by the claims -/

/-- The keep-rule claim C1 asserts for a reflection row: amplitude and phase
both *parse successfully* to *finite* values. -/
def specKeepsRow (fcol phcol : ℕ) (row : List String) : Bool :=
  (match (row.get? fcol).bind parseFloat with
   | some (.fin _) => true
   | _ => false) &&
  (match (row.get? phcol).bind parseFloat with
   | some (.fin _) => true
   | _ => false)

/-- The keep-rule the code actually applies: amplitude and phase are finite
*after* the `unwrap_or(0.0)` default (an unparsable token becomes the finite
`0.0` and is kept). -/
def codeKeepsRow (fcol phcol : ℕ) (row : List String) : Bool :=
  (parsedF32OrZero row fcol).isFinite && (parsedF32OrZero row phcol).isFinite

/-- The `MapHeader` literal built at the end of `sf_cif_to_map` (step 9):
identity axis order `mapc=1, mapr=2, maps=3`, zero starts, `m· = n·`,
explicit zero origin.  `dmin`/`dmax`/`dmean` are fold statistics over the
reconstructed data; their values are irrelevant to the claims and are taken
as parameters (`f32` infinity initialisers are not representable in `ℚ`). -/
def sfHeader (nx ny nz : ℕ) (cell : ℚ × ℚ × ℚ × ℚ × ℚ × ℚ) (ispg : ℤ)
    (dmin dmax dmean : ℚ) : MapHeader :=
  { nx := nx, ny := ny, nz := nz, mode := 2,
    nxstart := 0, nystart := 0, nzstart := 0,
    mx := nx, my := ny, mz := nz, cell := cell,
    mapc := 1, mapr := 2, maps := 3,
    dmin := dmin, dmax := dmax, dmean := dmean,
    ispg := ispg, nsymbt := 0, version := 20140,
    xorigin := some 0, yorigin := some 0, zorigin := some 0 }

/-- The `DensityMap` literal built at the end of `sf_cif_to_map` (step 9):
permutations derived from the header codes, `origin_frac` from
`get_origin_frac`.  `cell_uc` stands for `UnitCell::new(cell)` (trigonometric
construction, carried as data), and `inv_sigma` for the `1/√variance`
statistic (irrational); neither value matters to the claims. -/
def sfDensityMap (nx ny nz : ℕ) (cell : ℚ × ℚ × ℚ × ℚ × ℚ × ℚ) (ispg : ℤ)
    (dmin dmax dmean : ℚ) (cell_uc : UnitCell) (data : List ℚ)
    (inv_sigma : ℚ) : DensityMap :=
  let hdr := sfHeader nx ny nz cell ispg dmin dmax dmean
  { hdr := hdr, cell := cell_uc,
    origin_frac := get_origin_frac hdr cell_uc,
    perm_f2c := permF2C hdr.mapc hdr.mapr hdr.maps,
    perm_c2f := permC2F hdr.mapc hdr.mapr hdr.maps,
    data := data, mean := dmean, inv_sigma := inv_sigma }

/-- The Hermitian invariant on an assembly state: for every Miller triple,
the grid cell at the wrapped position of `(-h,-k,-l)` is the conjugate of
the cell at the wrapped position of `(h,k,l)`, and the counters agree. -/
def HermState (nx ny nz : ℕ) (st : AsmState) : Prop :=
  ∀ h k l : ℤ,
    st.1 (idxHKL nx ny nz (-h) (-k) (-l)) = cconj (st.1 (idxHKL nx ny nz h k l)) ∧
    st.2 (idxHKL nx ny nz (-h) (-k) (-l)) = st.2 (idxHKL nx ny nz h k l)

/-! ## Concrete fixtures -/

/-- Header of the C2 scenario: `nx=ny=nz=mx=my=mz=4`, identity axis codes,
mode 2, zero starts, no explicit origin, cubic cell of side 4. -/
def hdr2 : MapHeader :=
  { nx := 4, ny := 4, nz := 4, mode := 2, nxstart := 0, nystart := 0, nzstart := 0,
    mx := 4, my := 4, mz := 4, cell := (4, 4, 4, 90, 90, 90),
    mapc := 1, mapr := 2, maps := 3, dmin := 0, dmax := 63, dmean := 63/2,
    ispg := 1, nsymbt := 0, version := 20140,
    xorigin := none, yorigin := none, zorigin := none }

/-- Orthogonal unit cell of side 4: with exact arithmetic `UnitCell::new`'s
cell vectors are `(4,0,0)`, `(4·cos 90°, 4·sin 90°, 0) = (0,4,0)` and
`(0,0,4)`, so `ortho = diag(4)` and `ortho_inv = diag(1/4)`. -/
def cell4 : UnitCell :=
  { a := 4, b := 4, c := 4, alpha := 90, beta := 90, gamma := 90,
    ortho := ⟨4, 0, 0, 0, 4, 0, 0, 0, 4⟩,
    ortho_inv := ⟨1/4, 0, 0, 0, 1/4, 0, 0, 0, 1/4⟩ }

/-- The C2 map: `DensityMap::new` on `hdr2` with payload `0.0..63.0` in file
order.  Permutations and origin are derived exactly as in the constructor;
`mean` is the computed average `63/2`; `inv_sigma` (a square root) is unused
by the sampling claims and set to 1. -/
def M2 : DensityMap :=
  { hdr := hdr2, cell := cell4,
    origin_frac := get_origin_frac hdr2 cell4,
    perm_f2c := permF2C 1 2 3, perm_c2f := permC2F 1 2 3,
    data := (List.range 64).map (fun n => (n : ℚ)),
    mean := 63/2, inv_sigma := 1 }

/-- A header with a non-identity axis permutation (`mapc=2, mapr=1, maps=3`)
and pairwise-distinct dimensions, used to separate the two samplers'
wrap/permute orders (claim C3). -/
def hdr3 : MapHeader :=
  { nx := 2, ny := 3, nz := 5, mode := 2, nxstart := 0, nystart := 0, nzstart := 0,
    mx := 2, my := 3, mz := 5, cell := (2, 3, 5, 90, 90, 90),
    mapc := 2, mapr := 1, maps := 3, dmin := 0, dmax := 0, dmean := 0,
    ispg := 1, nsymbt := 0, version := 20140,
    xorigin := none, yorigin := none, zorigin := none }

/-- The C3 counterexample map built on `hdr3` (payload `0..29` in file
order). -/
def M3 : DensityMap :=
  { hdr := hdr3, cell := cell4,
    origin_frac := get_origin_frac hdr3 cell4,
    perm_f2c := permF2C 2 1 3, perm_c2f := permC2F 2 1 3,
    data := (List.range 30).map (fun n => (n : ℚ)),
    mean := 0, inv_sigma := 1 }

/-- `hdr2` with an explicit Cartesian origin present (all three fields). -/
def hdrOrig : MapHeader :=
  { hdr2 with xorigin := some 1, yorigin := some 2, zorigin := some 3 }

/-- A minimal 1×1×1 map (single voxel), for in-bounds witnesses. -/
def M1 : DensityMap :=
  { hdr := { hdr2 with nx := 1, ny := 1, nz := 1, mx := 1, my := 1, mz := 1 },
    cell := cell4,
    origin_frac := ⟨0, 0, 0⟩,
    perm_f2c := permF2C 1 2 3, perm_c2f := permC2F 1 2 3,
    data := [0],
    mean := 0, inv_sigma := 1 }

/-- A symmetry operator with translation `(1/4, 0, 0)` (as produced by
`parse_symop_xyz "x+1/4,y,z"`), used by the C5 counterexample. -/
def opQuarter : SymOp :=
  ⟨((1, 0, 0), (0, 1, 0), (0, 0, 1)), (1/4, 0, 0)⟩

/-! # Theorems -/

/-! ## Basic facts about the wrapping helpers -/

theorem pmod_lt (i : ℤ) {n : ℕ} (hn : 0 < n) : pmod i n < n :=
  Nat.mod_lt _ hn

/-- For positive `n`, `pmod` computes the mathematical residue `i % n`. -/
theorem pmod_eq (i : ℤ) {n : ℕ} (hn : 0 < n) : (pmod i n : ℤ) = i % (n : ℤ) := by
  have hn' : (0 : ℤ) < (n : ℤ) := by exact_mod_cast hn
  have h0 : 0 ≤ i % (n : ℤ) := Int.emod_nonneg i (ne_of_gt hn')
  have h1 : i % (n : ℤ) < (n : ℤ) := Int.emod_lt_of_pos i hn'
  unfold pmod
  have hnn : (0 : ℤ) ≤ i % (n : ℤ) + n := by linarith
  have htn : (((i % (n : ℤ)) + (n : ℤ)).toNat : ℤ) = i % (n : ℤ) + n :=
    Int.toNat_of_nonneg hnn
  have hge : n ≤ ((i % (n : ℤ)) + (n : ℤ)).toNat := by omega
  have hlt : ((i % (n : ℤ)) + (n : ℤ)).toNat < 2 * n := by omega
  have hsub : ((i % (n : ℤ)) + (n : ℤ)).toNat % n = ((i % (n : ℤ)) + (n : ℤ)).toNat - n := by
    rw [Nat.mod_eq_sub_mod hge, Nat.mod_eq_of_lt (by omega)]
  rw [hsub]
  omega

/-! ## Claim C8 -/

/-- Claim C8 (confirmed): `parse_symop_xyz` applied to `"-y,x-y,z+1/3"`
yields the rotation rows `[[0,-1,0],[1,-1,0],[0,0,1]]` and the translation
`[0,0,1/3]`. -/
theorem claim_C8_symop_example :
    parse_symop_xyz "-y,x-y,z+1/3" =
      ⟨((0, -1, 0), (1, -1, 0), (0, 0, 1)), (0, 0, 1/3)⟩ := by
  decide

/-! ## Claim C7 -/

/-- Claim C7 (confirmed): an origin field whose magnitude is below `1e-4`
is treated as absent when the binary header is read; whenever a component of
the explicit origin is absent, `origin_frac` is `(nxstart/mx, nystart/my,
nzstart/mz)` in fractional units, and when all three are present it is the
cell's `cartesian_to_fractional` of the explicit Cartesian origin. -/
theorem claim_C7_origin_resolution (v : ℚ) (hdr : MapHeader) (cell : UnitCell) :
    (ratAbs v < mapEPS → originField v = none) ∧
    ((hdr.xorigin = none ∨ hdr.yorigin = none ∨ hdr.zorigin = none) →
      get_origin_frac hdr cell =
        ⟨(hdr.nxstart : ℚ) / (hdr.mx : ℚ),
         (hdr.nystart : ℚ) / (hdr.my : ℚ),
         (hdr.nzstart : ℚ) / (hdr.mz : ℚ)⟩) ∧
    (∀ ox oy oz : ℚ, hdr.xorigin = some ox → hdr.yorigin = some oy →
      hdr.zorigin = some oz →
      get_origin_frac hdr cell = cell.cartesian_to_fractional ⟨ox, oy, oz⟩) := by
  refine ⟨?_, ?_, ?_⟩
  · intro hv
    unfold originField
    rw [if_neg (by exact not_lt.mpr (le_of_lt hv))]
  · intro habs
    unfold get_origin_frac
    rcases hx : hdr.xorigin with _ | ox <;> rcases hy : hdr.yorigin with _ | oy <;>
      rcases hz : hdr.zorigin with _ | oz <;> simp_all
  · intro ox oy oz hx hy hz
    unfold get_origin_frac
    rw [hx, hy, hz]

/-- Witness for C7 at concrete inputs: `1/20000` is below the epsilon and
becomes absent; `hdr2` (absent origin) resolves to the start-offset origin;
`hdrOrig` (explicit origin `(1,2,3)`) resolves through the cell matrix. -/
theorem claim_C7_origin_resolution_witness :
    originField (1/20000) = none ∧
    get_origin_frac hdr2 cell4 = ⟨0, 0, 0⟩ ∧
    get_origin_frac hdrOrig cell4 = cell4.cartesian_to_fractional ⟨1, 2, 3⟩ := by
  refine ⟨(claim_C7_origin_resolution (1/20000) hdr2 cell4).1 (by decide), ?_, ?_⟩
  · have h := (claim_C7_origin_resolution (1/20000) hdr2 cell4).2.1 (Or.inl rfl)
    rw [h]
    decide
  · exact (claim_C7_origin_resolution (1/20000) hdrOrig cell4).2.2 1 2 3 rfl rfl rfl

/-! ## Claim C10 -/

/-- Claim C10 (confirmed): every `DensityMap` built by `sf_cif_to_map`
(construction path B) has identity permutations (`perm_f2c = perm_c2f =
[0,1,2]`, from `mapc=1, mapr=2, maps=3`), sampling counts equal to extents
(`mx=nx, my=ny, mz=nz`), and `origin_frac = (0,0,0)`: the explicit zero
Cartesian origin maps to the zero fractional vector for every cell matrix. -/
theorem claim_C10_path_b_invariants (nx ny nz : ℕ) (cell : ℚ × ℚ × ℚ × ℚ × ℚ × ℚ)
    (ispg : ℤ) (dmin dmax dmean : ℚ) (cell_uc : UnitCell) (data : List ℚ)
    (inv_sigma : ℚ) :
    (sfDensityMap nx ny nz cell ispg dmin dmax dmean cell_uc data inv_sigma).perm_f2c
        = (0, 1, 2) ∧
    (sfDensityMap nx ny nz cell ispg dmin dmax dmean cell_uc data inv_sigma).perm_c2f
        = (0, 1, 2) ∧
    (sfDensityMap nx ny nz cell ispg dmin dmax dmean cell_uc data inv_sigma).hdr.mx
        = (sfDensityMap nx ny nz cell ispg dmin dmax dmean cell_uc data inv_sigma).hdr.nx ∧
    (sfDensityMap nx ny nz cell ispg dmin dmax dmean cell_uc data inv_sigma).hdr.my
        = (sfDensityMap nx ny nz cell ispg dmin dmax dmean cell_uc data inv_sigma).hdr.ny ∧
    (sfDensityMap nx ny nz cell ispg dmin dmax dmean cell_uc data inv_sigma).hdr.mz
        = (sfDensityMap nx ny nz cell ispg dmin dmax dmean cell_uc data inv_sigma).hdr.nz ∧
    (sfDensityMap nx ny nz cell ispg dmin dmax dmean cell_uc data inv_sigma).origin_frac
        = ⟨0, 0, 0⟩ := by
  refine ⟨rfl, rfl, rfl, rfl, rfl, ?_⟩
  show get_origin_frac (sfHeader nx ny nz cell ispg dmin dmax dmean) cell_uc = ⟨0, 0, 0⟩
  unfold get_origin_frac sfHeader UnitCell.cartesian_to_fractional Mat3.mulVec
  simp [mul_zero, add_zero]

/-! ## Claim C4 -/

/-- Claim C4 is refuted at the degenerate header codes `mapc=1, mapr=1,
maps=2`: the derived pair is `perm_f2c = [0,0,1]`, `perm_c2f = [1,2,0]`, and
already at axis 0 the round trip gives `perm_c2f[perm_f2c[0]] = 1 ≠ 0`.  So
the round-trip law does not hold for *every* header value, only for genuine
permutations. -/
theorem claim_C4_counterexample :
    permF2C 1 1 2 = (0, 0, 1) ∧ permC2F 1 1 2 = (1, 2, 0) ∧
    ¬ (∀ i, i < 3 →
        get3 (permC2F 1 1 2) (get3 (permF2C 1 1 2) i 0) 0 = i ∧
        get3 (permF2C 1 1 2) (get3 (permC2F 1 1 2) i 0) 0 = i) := by
  decide

/-- Claim C4 (amended): whenever `(mapc, mapr, maps)` is a permutation of
`(1,2,3)` — every header the format admits — the derived pair is a round-trip
inverse: `perm_c2f[perm_f2c[i]] = i` and `perm_f2c[perm_c2f[i]] = i` for each
axis `i < 3`. -/
theorem claim_C4_roundtrip (mapc mapr maps i : ℕ)
    (hperm : (mapc, mapr, maps) ∈
      [(1, 2, 3), (1, 3, 2), (2, 1, 3), (2, 3, 1), (3, 1, 2), (3, 2, 1)])
    (hi : i < 3) :
    get3 (permC2F mapc mapr maps) (get3 (permF2C mapc mapr maps) i 0) 0 = i ∧
    get3 (permF2C mapc mapr maps) (get3 (permC2F mapc mapr maps) i 0) 0 = i := by
  simp only [List.mem_cons, List.not_mem_nil, or_false, Prod.mk.injEq] at hperm
  rcases hperm with ⟨h1, h2, h3⟩ | ⟨h1, h2, h3⟩ | ⟨h1, h2, h3⟩ | ⟨h1, h2, h3⟩ |
    ⟨h1, h2, h3⟩ | ⟨h1, h2, h3⟩ <;> subst h1 <;> subst h2 <;> subst h3 <;>
    (interval_cases i <;> decide)

/-- Witness for C4 at the permutation `(2,3,1)` and axis 0. -/
theorem claim_C4_roundtrip_witness :
    get3 (permC2F 2 3 1) (get3 (permF2C 2 3 1) 0 0) 0 = 0 ∧
    get3 (permF2C 2 3 1) (get3 (permC2F 2 3 1) 0 0) 0 = 0 :=
  claim_C4_roundtrip 2 3 1 0 (by decide) (by decide)

/-! ## Claim C2 -/

/-- Claim C2 is refuted at the Cartesian origin of the C2 scenario map: the
fractional coordinate 0 gives grid coordinate `0·4 − 0.5 = −0.5`, Rust's
`round` (halves away from zero) gives `−1`, and the positive modulus wraps it
to the *last* voxel on each axis, so the sampler returns `data[63] = 63.0`,
not `0.0`.  (This is the behaviour §4.8 of the spec itself requires at a
half-voxel boundary.) -/
theorem claim_C2_counterexample :
    density_at_point M2 ⟨0, 0, 0⟩ = 63 ∧ density_at_point M2 ⟨0, 0, 0⟩ ≠ 0 := by
  decide

/-- Claim C2 (amended): on the scenario map, `density_at_point` at the
Cartesian origin returns `63.0` (the last voxel, by the half-voxel wrap
rule), and at every Cartesian point whose derived crystallographic voxel
index is `(1,0,0)` it returns `1.0`. -/
theorem claim_C2_sampling :
    density_at_point M2 ⟨0, 0, 0⟩ = 63 ∧
    ∀ cart : Vec3, icOfPoint M2 cart = (1, 0, 0) → density_at_point M2 cart = 1 := by
  refine ⟨by decide, ?_⟩
  intro cart h
  unfold density_at_point
  rw [h]
  decide

/-- Witness for C2: the Cartesian point `(1, 1/2, 1/2)` derives voxel index
`(1,0,0)` and samples `1.0`. -/
theorem claim_C2_sampling_witness :
    icOfPoint M2 ⟨1, 1/2, 1/2⟩ = (1, 0, 0) ∧ density_at_point M2 ⟨1, 1/2, 1/2⟩ = 1 :=
  ⟨by decide, claim_C2_sampling.2 ⟨1, 1/2, 1/2⟩ (by decide)⟩

/-! ## Claim C3 -/

/-- Claim C3 is refuted on the map `M3` (`mapc=2, mapr=1, maps=3`, dims
2×3×5): for the corner triple `(0,−1,0)` — one of the 8 corners the
trilinear sampler visits at the Cartesian origin — the trilinear sampler
computes file offset 2 while the nearest-neighbour permute-then-wrap rule
gives offset 1.  The trilinear sampler wraps each crystallographic index by
the *same-position* file dimension before permuting, which differs once the
permutation is not the identity and the dimensions are unequal. -/
theorem claim_C3_counterexample :
    triCornerOffset M3 (0, -1, 0) = 2 ∧ nnOffset M3 (0, -1, 0) = 1 ∧
    triCornerOffset M3 (0, -1, 0) ≠ nnOffset M3 (0, -1, 0) := by
  decide

/-- Claim C3 (amended): when the axis permutation is the identity
(`perm_c2f = [0,1,2]`, i.e. `mapc=1, mapr=2, maps=3` — in particular every
map produced by construction path B), the trilinear sampler's corner offset
coincides with the nearest-neighbour permute-then-wrap offset for every
corner index triple. -/
theorem claim_C3_identity_perm (m : DensityMap) (hperm : m.perm_c2f = (0, 1, 2))
    (c : ℤ × ℤ × ℤ) : triCornerOffset m c = nnOffset m c := by
  unfold triCornerOffset nnOffset
  rw [hperm]
  rfl

/-- Witness for C3 on the identity-permutation map `M2` at corner
`(5, −7, 3)`. -/
theorem claim_C3_identity_perm_witness :
    triCornerOffset M2 (5, -7, 3) = nnOffset M2 (5, -7, 3) :=
  claim_C3_identity_perm M2 (by decide) (5, -7, 3)

/-! ## Claim C1 -/

/-- A fold whose step ignores the elements a predicate rejects can be run
over the filtered list instead. -/
theorem foldl_skip_filter {α β : Type} (f : β → α → β) (p : α → Bool)
    (hf : ∀ st x, p x = false → f st x = st) :
    ∀ (l : List α) (init : β), List.foldl f init l = List.foldl f init (l.filter p) := by
  intro l
  induction l with
  | nil => intro init; rfl
  | cons a t ih =>
    intro init
    rw [List.filter_cons]
    by_cases h : p a = true
    · rw [if_pos h]
      exact ih (f init a)
    · have h0 : p a = false := by simpa using h
      rw [if_neg (by simp [h0])]
      simp only [List.foldl_cons, hf init a h0]
      exact ih init

/-- Claim C1 is refuted on a concrete reflection row whose amplitude token
`"abc"` cannot be parsed: the row is *kept* with the silent default `0.0`
(it appears in the reflection list and raises `hmax` to 1), whereas the
claim's keep-rule (`specKeepsRow`: successful parse to a finite value)
would drop it. -/
theorem claim_C1_counterexample :
    parseFloat "abc" = none ∧
    collectRefls 0 1 2 3 4 [["1", "0", "0", "abc", "0"]] =
      ([⟨1, 0, 0, 0, 0⟩], 1, 0, 0) ∧
    collectRefls 0 1 2 3 4 [["1", "0", "0", "abc", "0"]] ≠
      List.foldl (acceptRow 0 1 2 3 4) ([], 0, 0, 0)
        (([["1", "0", "0", "abc", "0"]]).filter (specKeepsRow 3 4)) := by
  decide

/-- Claim C1 (amended): the reflection loop never aborts (it is a total
fold), and it drops exactly the rows whose amplitude or phase is non-finite
*after* the `unwrap_or(0.0)` default — i.e. rows whose amplitude or phase
token parses successfully to a non-finite float.  Dropped rows contribute
nothing: the collection equals the same fold over the filtered row list, so
they reach neither the reflection list nor the `hmax`/`kmax`/`lmax`
extents.  A row whose amplitude or phase merely *fails to parse* (e.g. the
placeholder `"abc"`, or a missing column) is kept as a silent `0.0`, contrary
to the original claim. -/
theorem claim_C1_soft_drop (hcol kcol lcol fcol phcol : ℕ)
    (rows : List (List String)) :
    collectRefls hcol kcol lcol fcol phcol rows =
      List.foldl (acceptRow hcol kcol lcol fcol phcol) ([], 0, 0, 0)
        (rows.filter (codeKeepsRow fcol phcol)) := by
  unfold collectRefls
  refine foldl_skip_filter _ _ ?_ rows ([], 0, 0, 0)
  intro st row h
  unfold acceptRow
  unfold codeKeepsRow at h
  simp only
  rw [h]
  rfl

/-! ## Claim C9 -/

/-- The X-fastest linear offset is in bounds whenever each wrapped index
is. -/
theorem linear_index_lt {nx ny nz x y z : ℕ} (hx : x < nx) (hy : y < ny)
    (hz : z < nz) : (z * ny + y) * nx + x < nx * ny * nz := by
  have hA : z * ny + y + 1 ≤ (z + 1) * ny := by
    have h1 : y + 1 ≤ ny := hy
    calc z * ny + y + 1 = z * ny + (y + 1) := by ring
    _ ≤ z * ny + ny := by omega
    _ = (z + 1) * ny := by ring
  have hB : (z + 1) * ny ≤ nz * ny := Nat.mul_le_mul_right ny hz
  calc (z * ny + y) * nx + x < (z * ny + y) * nx + nx := by omega
  _ = (z * ny + y + 1) * nx := by ring
  _ ≤ (nz * ny) * nx := Nat.mul_le_mul_right nx (le_trans hA hB)
  _ = nx * ny * nz := by ring

/-- Claim C9 (confirmed): on a map whose data vector has length
`nx·ny·nz` with positive dimensions, the file-order offset computed by
`density_at_point` is strictly below `data.len()` — both for the index
derived from any (finite) Cartesian query and for *every* integer index
triple whatsoever, which covers the `as isize` images of non-finite
coordinates; the voxel lookup therefore never goes out of bounds. -/
theorem claim_C9_offset_in_bounds (m : DensityMap) (h1 : 0 < m.hdr.nx)
    (h2 : 0 < m.hdr.ny) (h3 : 0 < m.hdr.nz)
    (hlen : m.data.length = m.hdr.nx * m.hdr.ny * m.hdr.nz) :
    (∀ cart : Vec3, nnOffset m (icOfPoint m cart) < m.data.length) ∧
    (∀ ic : ℤ × ℤ × ℤ, nnOffset m ic < m.data.length) := by
  have hall : ∀ ic : ℤ × ℤ × ℤ, nnOffset m ic < m.data.length := by
    intro ic
    rw [hlen]
    unfold nnOffset
    exact linear_index_lt (pmod_lt _ h1) (pmod_lt _ h2) (pmod_lt _ h3)
  exact ⟨fun cart => hall _, hall⟩

/-- Witness for C9 on the single-voxel map `M1`, at the Cartesian origin and
at the integer triple `(5, −3, 7)`. -/
theorem claim_C9_offset_in_bounds_witness :
    nnOffset M1 (icOfPoint M1 ⟨0, 0, 0⟩) < M1.data.length ∧
    nnOffset M1 (5, -3, 7) < M1.data.length :=
  ⟨(claim_C9_offset_in_bounds M1 (by decide) (by decide) (by decide) (by decide)).1
      ⟨0, 0, 0⟩,
   (claim_C9_offset_in_bounds M1 (by decide) (by decide) (by decide) (by decide)).2
      (5, -3, 7)⟩

/-! ## Claim C5 -/

/-- The search loop never moves below its start. -/
theorem ngfGo_ge (fuel : ℕ) : ∀ k, k ≤ ngfGo fuel k := by
  induction fuel with
  | zero => intro k; exact le_rfl
  | succ f ih =>
    intro k
    unfold ngfGo
    by_cases h : isGood k = true
    · rw [if_pos h]
    · rw [if_neg h]
      exact le_trans (Nat.le_succ k) (ih (k + 1))

/-- If some good value lies within the budget, the search returns a good
value. -/
theorem ngfGo_good (fuel : ℕ) :
    ∀ k m, k ≤ m → m ≤ k + fuel → isGood m = true →
      isGood (ngfGo fuel k) = true := by
  induction fuel with
  | zero =>
    intro k m h1 h2 h3
    have : m = k := by omega
    subst this
    exact h3
  | succ f ih =>
    intro k m h1 h2 h3
    unfold ngfGo
    by_cases hk : isGood k = true
    · rw [if_pos hk]; exact hk
    · rw [if_neg hk]
      have hne : m ≠ k := by
        intro he; rw [he] at h3; exact hk h3
      exact ih (k + 1) m (by omega) (by omega) h3

/-- Dividing 2 out of a power of two within budget yields 1. -/
theorem stripGo_two_pow : ∀ (j fuel : ℕ), 2 ^ j ≤ fuel → stripGo 2 fuel (2 ^ j) = 1 := by
  intro j
  induction j with
  | zero =>
    intro fuel h
    rw [pow_zero] at h ⊢
    cases fuel with
    | zero => omega
    | succ f =>
      unfold stripGo
      rw [if_neg (by omega)]
  | succ i ih =>
    intro fuel h
    have hpos : 0 < 2 ^ (i + 1) := Nat.pos_pow_of_pos _ (by omega)
    cases fuel with
    | zero => omega
    | succ f =>
      unfold stripGo
      rw [if_pos ⟨hpos, by rw [Nat.pow_succ]; exact Nat.mul_mod_left _ _⟩]
      rw [Nat.pow_succ, Nat.mul_div_cancel _ (by omega)]
      apply ih
      have h1 : 1 ≤ 2 ^ i := Nat.one_le_two_pow
      have h2 : 2 ^ (i + 1) = 2 * 2 ^ i := by rw [Nat.pow_succ]; ring
      omega

/-- Powers of two are FFT-friendly. -/
theorem isGood_two_pow (j : ℕ) : isGood (2 ^ j) = true := by
  unfold isGood stripFactor
  rw [stripGo_two_pow j (2 ^ j) le_rfl]
  decide

/-- `next_good_fft` always returns an FFT-friendly size: the next power of
two above the start lies within the step budget. -/
theorem next_good_fft_good (n : ℕ) : isGood (next_good_fft n) = true := by
  unfold next_good_fft
  have hs : 1 ≤ n.max 1 := Nat.le_max_right n 1
  have hlog := Nat.pow_log_le_self 2 (x := n.max 1) (by omega)
  have hlt := Nat.lt_pow_succ_log_self (b := 2) (by omega) (n.max 1)
  have hpow : 2 ^ (Nat.log 2 (n.max 1) + 1) = 2 * 2 ^ Nat.log 2 (n.max 1) := by
    rw [Nat.pow_succ]; ring
  exact ngfGo_good (n.max 1 + 1) (n.max 1) (2 ^ (Nat.log 2 (n.max 1) + 1))
    (le_of_lt hlt) (by omega) (isGood_two_pow _)

/-- `next_good_fft` never shrinks its argument. -/
theorem next_good_fft_ge (n : ℕ) : n ≤ next_good_fft n :=
  le_trans (Nat.le_max_left n 1) (ngfGo_ge _ _)

/-- Rounding up to the next multiple of `d` with `(a + d - 1) / d * d` never
goes below `a`. -/
theorem ceil_mul_ge (a d : ℕ) (hd : 0 < d) : a ≤ (a + d - 1) / d * d := by
  rcases Nat.eq_zero_or_pos a with rfl | ha
  · exact Nat.zero_le _
  · have he : a + d - 1 = (a - 1) + d := by omega
    rw [he, Nat.add_div_right _ hd]
    have h1 := Nat.div_add_mod (a - 1) d
    have h2 := Nat.mod_lt (a - 1) hd
    calc a = (a - 1) + 1 := by omega
    _ ≤ d * ((a - 1) / d) + d := by omega
    _ = ((a - 1) / d + 1) * d := by ring

/-- The running best denominator stays positive through the candidate
fold. -/
theorem denomFold_pos (x : ℚ) :
    ∀ (l : List ℕ) (st : ℕ × ℚ), 0 < st.1 → 0 < (l.foldl (denomStep x) st).1 := by
  intro l
  induction l with
  | nil => intro st h; exact h
  | cons a t ih =>
    intro st h
    apply ih
    simp only [denomStep]
    split
    · exact Nat.succ_pos a
    · exact h

theorem denom_of_fraction_pos (x : ℚ) : 0 < denom_of_fraction x :=
  denomFold_pos x (List.range 12) (1, f64MAX) (by omega)

theorem lcmS_pos {a b : ℕ} (ha : 0 < a) (hb : 0 < b) : 0 < lcmS a b := by
  unfold lcmS
  have hg : Nat.gcd a b ∣ a := Nat.gcd_dvd_left a b
  have hgpos : 0 < Nat.gcd a b := Nat.gcd_pos_of_pos_left b ha
  exact Nat.mul_pos (Nat.div_pos (Nat.le_of_dvd ha hg) hgpos) hb

/-- The per-axis denominator LCMs are positive. -/
theorem symDenoms_pos (symops : List SymOp) :
    0 < (symDenoms symops).1 ∧ 0 < (symDenoms symops).2.1 ∧
    0 < (symDenoms symops).2.2 := by
  have general : ∀ (l : List SymOp) (st : ℕ × ℕ × ℕ),
      0 < st.1 → 0 < st.2.1 → 0 < st.2.2 →
      0 < (l.foldl (fun (d : ℕ × ℕ × ℕ) op =>
        (lcmS d.1 (denom_of_fraction op.t.1),
         lcmS d.2.1 (denom_of_fraction op.t.2.1),
         lcmS d.2.2 (denom_of_fraction op.t.2.2))) st).1 ∧
      0 < (l.foldl (fun (d : ℕ × ℕ × ℕ) op =>
        (lcmS d.1 (denom_of_fraction op.t.1),
         lcmS d.2.1 (denom_of_fraction op.t.2.1),
         lcmS d.2.2 (denom_of_fraction op.t.2.2))) st).2.1 ∧
      0 < (l.foldl (fun (d : ℕ × ℕ × ℕ) op =>
        (lcmS d.1 (denom_of_fraction op.t.1),
         lcmS d.2.1 (denom_of_fraction op.t.2.1),
         lcmS d.2.2 (denom_of_fraction op.t.2.2))) st).2.2 := by
    intro l
    induction l with
    | nil => intro st h1 h2 h3; exact ⟨h1, h2, h3⟩
    | cons a t ih =>
      intro st h1 h2 h3
      exact ih _ (lcmS_pos h1 (denom_of_fraction_pos _))
        (lcmS_pos h2 (denom_of_fraction_pos _))
        (lcmS_pos h3 (denom_of_fraction_pos _))
  exact general symops (1, 1, 1) Nat.one_pos Nat.one_pos Nat.one_pos

/-- Claim C5 is refuted on a single reflection with `|h| = 13` and the
symmetry operator `x+1/4, y, z`: the detected denominator is 4 and the LCM
is 4, the initial axis size is `next_good_fft(27) = 27`, the divisibility
fix rounds up to 28 and re-rounds to the FFT-friendly 30, which is *not* a
multiple of 4 — the second FFT rounding breaks the divisibility the claim
asserts. -/
theorem claim_C5_counterexample :
    denom_of_fraction ((1 : ℚ)/4) = 4 ∧
    (symDenoms [opQuarter]).1 = 4 ∧
    (gridDims 13 0 0 [opQuarter]).1 = 30 ∧
    ¬ ((gridDims 13 0 0 [opQuarter]).1 % (symDenoms [opQuarter]).1 = 0) := by
  decide

/-- Claim C5 (amended): every grid dimension chosen by the sizing stage of
`sf_cif_to_map` is FFT-friendly — repeatedly dividing it by 2, 3 and 5
reduces it to 1 — and is at least `2·max_index + 1` for its axis.  The
symmetry-divisibility half of the original claim does not hold in general
(see the counterexample): the final `next_good_fft` re-rounding can land on
a non-multiple of the axis denominator. -/
theorem claim_C5_fft_friendly (hmax kmax lmax : ℕ) (symops : List SymOp) :
    isGood (gridDims hmax kmax lmax symops).1 = true ∧
    isGood (gridDims hmax kmax lmax symops).2.1 = true ∧
    isGood (gridDims hmax kmax lmax symops).2.2 = true ∧
    hmax * 2 + 1 ≤ (gridDims hmax kmax lmax symops).1 ∧
    kmax * 2 + 1 ≤ (gridDims hmax kmax lmax symops).2.1 ∧
    lmax * 2 + 1 ≤ (gridDims hmax kmax lmax symops).2.2 := by
  obtain ⟨hd1, hd2, hd3⟩ := symDenoms_pos symops
  unfold gridDims
  simp only
  refine ⟨?_, ?_, ?_, ?_, ?_, ?_⟩ <;> split
  · exact next_good_fft_good _
  · exact next_good_fft_good _
  · exact next_good_fft_good _
  · exact next_good_fft_good _
  · exact next_good_fft_good _
  · exact next_good_fft_good _
  · exact le_trans (next_good_fft_ge _)
      (le_trans (ceil_mul_ge _ _ hd1) (next_good_fft_ge _))
  · exact next_good_fft_ge _
  · exact le_trans (next_good_fft_ge _)
      (le_trans (ceil_mul_ge _ _ hd2) (next_good_fft_ge _))
  · exact next_good_fft_ge _
  · exact le_trans (next_good_fft_ge _)
      (le_trans (ceil_mul_ge _ _ hd3) (next_good_fft_ge _))
  · exact next_good_fft_ge _

/-! ## Claim C6 -/

theorem cconj_cadd (a b : Cq) : cconj (cadd a b) = cadd (cconj a) (cconj b) := by
  unfold cconj cadd
  rw [neg_add]

theorem cconj_cconj (a : Cq) : cconj (cconj a) = a := by
  unfold cconj
  simp

theorem cadd_right_comm (a v w : Cq) : cadd (cadd a v) w = cadd (cadd a w) v := by
  obtain ⟨a1, a2⟩ := a
  obtain ⟨v1, v2⟩ := v
  obtain ⟨w1, w2⟩ := w
  unfold cadd
  simp only [Prod.mk.injEq]
  constructor <;> ring

theorem cconj_cdivNat (a : Cq) (n : ℕ) : cconj (cdivNat a n) = cdivNat (cconj a) n := by
  obtain ⟨a1, a2⟩ := a
  unfold cconj cdivNat
  rw [neg_div]

theorem wrapHKL_lt (q : ℤ) {n : ℕ} (hn : 0 < n) : wrapHKL q n < n :=
  Nat.mod_lt _ hn

/-- `wrapHKL` and `pmod` share their definition. -/
theorem wrapHKL_eq_pmod (q : ℤ) (n : ℕ) : wrapHKL q n = pmod q n := rfl

/-- Congruent Miller indices wrap alike, and so do their negations. -/
theorem wrapHKL_neg_congr {q r : ℤ} {n : ℕ} (hn : 0 < n)
    (h : wrapHKL q n = wrapHKL r n) : wrapHKL (-q) n = wrapHKL (-r) n := by
  rw [wrapHKL_eq_pmod, wrapHKL_eq_pmod] at h
  have hmod : q % (n : ℤ) = r % (n : ℤ) := by
    rw [← pmod_eq q hn, ← pmod_eq r hn]
    exact_mod_cast h
  have hneg : (-q) % (n : ℤ) = (-r) % (n : ℤ) := Int.ModEq.neg hmod
  have hfin : ((wrapHKL (-q) n : ℕ) : ℤ) = ((wrapHKL (-r) n : ℕ) : ℤ) := by
    rw [wrapHKL_eq_pmod, wrapHKL_eq_pmod, pmod_eq _ hn, pmod_eq _ hn]
    exact hneg
  exact_mod_cast hfin

/-- Decomposition of the X-fastest linear index: equal offsets with in-range
components force equal components. -/
theorem decomp3 {nx ny : ℕ} {x1 y1 z1 x2 y2 z2 : ℕ} (hx1 : x1 < nx)
    (hx2 : x2 < nx) (hy1 : y1 < ny) (hy2 : y2 < ny)
    (h : (z1 * ny + y1) * nx + x1 = (z2 * ny + y2) * nx + x2) :
    x1 = x2 ∧ y1 = y2 ∧ z1 = z2 := by
  have hnx : 0 < nx := by omega
  have hny : 0 < ny := by omega
  have ex : x1 = x2 := by
    have e1 : ((z1 * ny + y1) * nx + x1) % nx = x1 := by
      rw [Nat.mul_comm (z1 * ny + y1) nx, Nat.mul_add_mod, Nat.mod_eq_of_lt hx1]
    have e2 : ((z2 * ny + y2) * nx + x2) % nx = x2 := by
      rw [Nat.mul_comm (z2 * ny + y2) nx, Nat.mul_add_mod, Nat.mod_eq_of_lt hx2]
    rw [h] at e1
    omega
  subst ex
  have hq : z1 * ny + y1 = z2 * ny + y2 :=
    Nat.eq_of_mul_eq_mul_right hnx (by omega)
  have ey : y1 = y2 := by
    have e1 : (z1 * ny + y1) % ny = y1 := by
      rw [Nat.mul_comm z1 ny, Nat.mul_add_mod, Nat.mod_eq_of_lt hy1]
    have e2 : (z2 * ny + y2) % ny = y2 := by
      rw [Nat.mul_comm z2 ny, Nat.mul_add_mod, Nat.mod_eq_of_lt hy2]
    rw [hq] at e1
    omega
  subst ey
  exact ⟨rfl, rfl, Nat.eq_of_mul_eq_mul_right hny (by omega)⟩

/-- Equal grid positions force equal wrapped components. -/
theorem idx_inj {nx ny nz : ℕ} (hnx : 0 < nx) (hny : 0 < ny) (hnz : 0 < nz)
    {h1 k1 l1 h2 k2 l2 : ℤ}
    (he : idxHKL nx ny nz h1 k1 l1 = idxHKL nx ny nz h2 k2 l2) :
    wrapHKL h1 nx = wrapHKL h2 nx ∧ wrapHKL k1 ny = wrapHKL k2 ny ∧
    wrapHKL l1 nz = wrapHKL l2 nz := by
  unfold idxHKL at he
  obtain ⟨ex, ey, ez⟩ := decomp3 (wrapHKL_lt h1 hnx) (wrapHKL_lt h2 hnx)
    (wrapHKL_lt k1 hny) (wrapHKL_lt k2 hny) he
  exact ⟨ex, ey, ez⟩

/-- The grid position of a Miller triple determines the position of its
Friedel mate: equal positions have equal negated positions. -/
theorem idx_neg_congr {nx ny nz : ℕ} (hnx : 0 < nx) (hny : 0 < ny)
    (hnz : 0 < nz) {h1 k1 l1 h2 k2 l2 : ℤ}
    (he : idxHKL nx ny nz h1 k1 l1 = idxHKL nx ny nz h2 k2 l2) :
    idxHKL nx ny nz (-h1) (-k1) (-l1) = idxHKL nx ny nz (-h2) (-k2) (-l2) := by
  obtain ⟨ex, ey, ez⟩ := idx_inj hnx hny hnz he
  unfold idxHKL
  rw [wrapHKL_neg_congr hnx ex, wrapHKL_neg_congr hny ey, wrapHKL_neg_congr hnz ez]

/-- One (reflection, operator) write pair — value at `idx(a,b,c)` plus its
conjugate at `idx(-a,-b,-c)`, each counted — preserves the Hermitian
invariant. -/
theorem hermState_write {nx ny nz : ℕ} (hnx : 0 < nx) (hny : 0 < ny)
    (hnz : 0 < nz) (st : AsmState) (hst : HermState nx ny nz st)
    (a b c : ℤ) (v : Cq) :
    HermState nx ny nz
      (updAdd (updAdd st.1 (idxHKL nx ny nz a b c) v)
        (idxHKL nx ny nz (-a) (-b) (-c)) (cconj v),
       updInc (updInc st.2 (idxHKL nx ny nz a b c))
        (idxHKL nx ny nz (-a) (-b) (-c))) := by
  intro h k l
  obtain ⟨hg, hc⟩ := hst h k l
  have hPp_iff : idxHKL nx ny nz h k l = idxHKL nx ny nz a b c ↔
      idxHKL nx ny nz (-h) (-k) (-l) = idxHKL nx ny nz (-a) (-b) (-c) := by
    constructor
    · intro he; exact idx_neg_congr hnx hny hnz he
    · intro he
      have := idx_neg_congr hnx hny hnz he
      simpa [neg_neg] using this
  have hPpn_iff : idxHKL nx ny nz h k l = idxHKL nx ny nz (-a) (-b) (-c) ↔
      idxHKL nx ny nz (-h) (-k) (-l) = idxHKL nx ny nz a b c := by
    constructor
    · intro he
      have := idx_neg_congr hnx hny hnz he
      simpa [neg_neg] using this
    · intro he
      have := idx_neg_congr hnx hny hnz he
      simpa [neg_neg] using this
  set P := idxHKL nx ny nz h k l with hPdef
  set Pn := idxHKL nx ny nz (-h) (-k) (-l) with hPndef
  set p := idxHKL nx ny nz a b c with hpdef
  set pn := idxHKL nx ny nz (-a) (-b) (-c) with hpndef
  simp only [updAdd, updInc]
  by_cases h1 : P = p
  · have h2 : Pn = pn := hPp_iff.mp h1
    by_cases h3 : P = pn
    · -- the write pair targets a single self-mate cell, and P is that cell
      have h4 : Pn = p := hPpn_iff.mp h3
      have hpp : pn = p := by rw [← h3, h1]
      have hPP : st.1 P = cconj (st.1 P) := by
        have hPnP : Pn = P := by rw [h4, ← h1]
        rw [hPnP] at hg
        exact hg
      constructor
      · rw [if_pos h2, if_pos h3, if_pos hpp, ← h1]
        calc cadd (cadd (st.1 P) v) (cconj v)
            = cadd (cadd (st.1 P) (cconj v)) v := cadd_right_comm _ _ _
        _ = cconj (cadd (cadd (st.1 P) v) (cconj v)) := by
            rw [cconj_cadd, cconj_cadd, cconj_cconj, ← hPP]
      · rw [if_pos h2, if_pos h3, if_pos hpp]
    · -- distinct mates, P is the direct cell
      have h4 : ¬ Pn = p := fun hh => h3 (hPpn_iff.mpr hh)
      have hpp : ¬ pn = p := fun hh => h3 (by rw [← hh] at h1; exact h1)
      constructor
      · rw [if_pos h2, if_neg hpp, if_neg h3, if_pos h1, ← h2, ← h1,
          cconj_cadd, hg]
      · rw [if_pos h2, if_neg hpp, if_neg h3, if_pos h1, ← h2, ← h1, hc]
  · by_cases h3 : P = pn
    · -- distinct mates, P is the conjugate cell
      have h4 : Pn = p := hPpn_iff.mp h3
      have h2 : ¬ Pn = pn := fun hh => h1 (hPp_iff.mpr hh)
      have hpp : ¬ pn = p := fun hh => h1 (by rw [h3, hh])
      constructor
      · rw [if_neg h2, if_pos h4, if_pos h3, if_neg hpp, ← h4, ← h3,
          cconj_cadd, cconj_cconj, hg]
      · rw [if_neg h2, if_pos h4, if_pos h3, if_neg hpp, ← h4, ← h3, hc]
    · -- the write pair misses both P and its mate
      have h2 : ¬ Pn = pn := fun hh => h1 (hPp_iff.mpr hh)
      have h4 : ¬ Pn = p := fun hh => h3 (hPpn_iff.mpr hh)
      constructor
      · rw [if_neg h2, if_neg h4, if_neg h3, if_neg h1]
        exact hg
      · rw [if_neg h2, if_neg h4, if_neg h3, if_neg h1]
        exact hc

/-- A single loop iteration of the assembly preserves the Hermitian
invariant. -/
theorem hermState_step {nx ny nz : ℕ} (hnx : 0 < nx) (hny : 0 < ny)
    (hnz : 0 < nz) (fpD : ℚ → ℚ → Cq) (pf : ℚ → Cq) (r : Refl) (op : SymOp)
    (st : AsmState) (hst : HermState nx ny nz st) :
    HermState nx ny nz (assembleStep nx ny nz fpD pf r st op) := by
  simp only [assembleStep]
  exact hermState_write hnx hny hnz st hst _ _ _ _

/-- The whole double loop of the assembly preserves the invariant, which
holds of the zero initial state. -/
theorem hermState_assemble {nx ny nz : ℕ} (hnx : 0 < nx) (hny : 0 < ny)
    (hnz : 0 < nz) (fpD : ℚ → ℚ → Cq) (pf : ℚ → Cq) (refls : List Refl)
    (symops : List SymOp) :
    HermState nx ny nz (assembleSF nx ny nz fpD pf refls symops) := by
  have hinner : ∀ (r : Refl) (ops : List SymOp) (st : AsmState),
      HermState nx ny nz st →
      HermState nx ny nz (ops.foldl (assembleStep nx ny nz fpD pf r) st) := by
    intro r ops
    induction ops with
    | nil => intro st h; exact h
    | cons o t ih =>
      intro st h
      exact ih _ (hermState_step hnx hny hnz fpD pf r o st h)
  have houter : ∀ (rs : List Refl) (st : AsmState),
      HermState nx ny nz st →
      HermState nx ny nz (rs.foldl
        (fun st r => symops.foldl (assembleStep nx ny nz fpD pf r) st) st) := by
    intro rs
    induction rs with
    | nil => intro st h; exact h
    | cons r t ih =>
      intro st h
      exact ih _ (hinner r symops st h)
  apply houter
  intro h k l
  refine ⟨?_, rfl⟩
  show ((0 : ℚ), (0 : ℚ)) = cconj (0, 0)
  unfold cconj
  rw [neg_zero]

/-- Claim C6 (confirmed): after symmetry expansion and duplicate-count
averaging in `sf_cif_to_map`, for every Miller triple `(h,k,l)` the
reciprocal-grid cell at the wrapped position of `(-h,-k,-l)` equals the
complex conjugate of the cell at the wrapped position of `(h,k,l)` —
exactly, for any values of the polar/phase factors (quantified as abstract
functions). -/
theorem claim_C6_hermitian (fpD : ℚ → ℚ → Cq) (pf : ℚ → Cq) (nx ny nz : ℕ)
    (refls : List Refl) (symops : List SymOp) (hnx : 0 < nx) (hny : 0 < ny)
    (hnz : 0 < nz) (h k l : ℤ) :
    avgGrid (assembleSF nx ny nz fpD pf refls symops)
        (idxHKL nx ny nz (-h) (-k) (-l)) =
      cconj (avgGrid (assembleSF nx ny nz fpD pf refls symops)
        (idxHKL nx ny nz h k l)) := by
  obtain ⟨hg, hc⟩ := hermState_assemble hnx hny hnz fpD pf refls symops h k l
  unfold avgGrid
  rw [hc, hg]
  by_cases h0 : 0 < (assembleSF nx ny nz fpD pf refls symops).2 (idxHKL nx ny nz h k l)
  · rw [if_pos h0, if_pos h0, cconj_cdivNat]
  · rw [if_neg h0, if_neg h0]

/-- Witness for C6 on a concrete empty assembly over a 1×1×1 grid. -/
theorem claim_C6_hermitian_witness :
    avgGrid (assembleSF 1 1 1 (fun a b => (a, b)) (fun s => (s, 0)) [] [])
        (idxHKL 1 1 1 (-0) (-0) (-0)) =
      cconj (avgGrid (assembleSF 1 1 1 (fun a b => (a, b)) (fun s => (s, 0)) [] [])
        (idxHKL 1 1 1 0 0 0)) :=
  claim_C6_hermitian (fun a b => (a, b)) (fun s => (s, 0)) 1 1 1 [] []
    (by decide) (by decide) (by decide) 0 0 0

end BioFiles
